import Mathlib

/-!
Shallow embedding of `src/set_signatures.py` (class `SetSignatures`): MinHash
signatures over the Mersenne prime field and LSH band keys.  Machine integers
are modelled as `Nat` with explicit `% 2 ^ 64` where numpy `uint64` arithmetic
wraps; Python exceptions are modelled with `Except`.  The external libraries
`mmh3` (a seeded 64-bit hash) and `numpy.random.default_rng` (a seeded
generator) are modelled abstractly by structures carrying their range
contracts.
-/

namespace SetSig

/-- The prime `_PRIME = 2 ^ 61 - 1` from `set_signatures.py` line 8. -/
def PRIME : ℕ := 2 ^ 61 - 1

/-- The mask `_MAX_HASH = 2 ^ 32 - 1` from `set_signatures.py` line 9. -/
def MAX_HASH : ℕ := 2 ^ 32 - 1

/-- Modulus of numpy `uint64` arithmetic: operations wrap modulo `2 ^ 64`. -/
def U64 : ℕ := 2 ^ 64

/-- Python exceptions that the code under `src/` can actually raise.  The
repository declares no exception class of its own; these are the library
`ValueError`s reachable from `SetSignatures`. -/
inductive PyError where
  /-- numpy: reducing an empty axis with `np.minimum.reduce` (no identity). -/
  | zeroSizeReduction : PyError
  /-- Python builtin: `min` applied to an empty sequence. -/
  | minEmptySequence : PyError
deriving DecidableEq, Repr

/-- Model of the external seeded 64-bit hash `mmh3.hash64(x, seed, signed=False)[0]`:
an arbitrary deterministic function on shingles (as character lists) and on byte
strings, with the library guarantee that results fit in 64 bits. -/
structure Hash64 where
  onShingle : List Char → ℕ → ℕ
  onBytes : List ℕ → ℕ → ℕ
  onShingle_lt : ∀ s seed, onShingle s seed < 2 ^ 64
  onBytes_lt : ∀ bs seed, onBytes bs seed < 2 ^ 64

/-- Model of `np.random.default_rng(seed).integers(low, high, size)`: a
deterministic stream indexed by the seed and the position of the call on the
generator, with the library guarantee on length and range (`high` exclusive). -/
structure RNG where
  integers : ℕ → ℕ → ℕ → ℕ → ℕ → List ℕ
  length_integers : ∀ seed call low high size,
    (integers seed call low high size).length = size
  mem_integers : ∀ seed call low high size x, low < high →
    x ∈ integers seed call low high size → low ≤ x ∧ x < high

/-- Embedding of `SetSignatures._permutations`: `a = rng.integers(1, _PRIME, num_perm)`
then `b = rng.integers(0, _PRIME, num_perm)`, two successive draws on the same
seeded generator. -/
def permutations (R : RNG) (seed num_perm : ℕ) : List ℕ × List ℕ :=
  (R.integers seed 0 1 PRIME num_perm, R.integers seed 1 0 PRIME num_perm)

/-- Candidate `(b, r)` pairs enumerated by `SetSignatures._pick_b_r`:
`r` ranges over `1 .. num_perm`, keeping divisors, with `b = num_perm // r`. -/
def candidates (num_perm : ℕ) : List (ℕ × ℕ) :=
  (List.range num_perm).filterMap (fun i =>
    if num_perm % (i + 1) = 0 then some (num_perm / (i + 1), i + 1) else none)

/-- The S-curve value `s = (1 / b) ** (1 / r)` computed for each candidate in
`SetSignatures._pick_b_r` (real-valued semantics of the float expression). -/
noncomputable def sCurve (b r : ℕ) : ℝ :=
  (1 / (b : ℝ)) ^ ((1 : ℝ) / (r : ℝ))

open Classical in
/-- One step of Python `min` with a key function: keep the accumulator unless
the next element has a strictly smaller key (so the first minimum wins). -/
noncomputable def minStep {α : Type} (key : α → ℝ) (acc y : α) : α :=
  if key y < key acc then y else acc

/-- Python `min(candidates, key=...)`: the first element of the list attaining
the minimal key, `none` on an empty list (where Python raises `ValueError`). -/
noncomputable def minBy {α : Type} (key : α → ℝ) : List α → Option α
  | [] => none
  | x :: xs => some (xs.foldl (minStep key) x)

/-- Embedding of `SetSignatures._pick_b_r`: choose the candidate minimizing
`|s - threshold|` and return `(b, r, s)`. -/
noncomputable def pickBR (num_perm : ℕ) (threshold : ℝ) : Option (ℕ × ℕ × ℝ) :=
  (minBy (fun p => |sCurve p.1 p.2 - threshold|) (candidates num_perm)).map
    (fun p => (p.1, p.2, sCurve p.1 p.2))

/-- State built by `SetSignatures.__init__`: the arguments plus the derived
coefficient arrays and band layout. -/
structure Config where
  num_perm : ℕ
  seed : ℕ
  shingle_size : ℕ
  threshold : ℝ
  a : List ℕ
  b : List ℕ
  num_bands : ℕ
  rows_per_band : ℕ
  actual_threshold : ℝ

/-- Embedding of `SetSignatures.__init__`: no argument validation is performed;
the only failure point is `min` over an empty candidate list inside
`_pick_b_r` (reached when `num_perm = 0`). -/
noncomputable def construct (R : RNG) (num_perm seed shingle_size : ℕ)
    (threshold : ℝ) : Except PyError Config :=
  match pickBR num_perm threshold with
  | none => .error .minEmptySequence
  | some (nb, rpb, s) =>
      .ok ⟨num_perm, seed, shingle_size, threshold,
           (permutations R seed num_perm).1, (permutations R seed num_perm).2,
           nb, rpb, s⟩

/-- Embedding of `SetSignatures.shingles`: the set comprehension
`{text[i:i+k] for i in range(len(text) - k + 1)}`, as the list of slices in
position order with duplicates removed (Python set semantics).  Texts are
lists of Unicode characters, matching Python string slicing. -/
def shingles (k : ℕ) (text : List Char) : List (List Char) :=
  ((List.range (text.length + 1 - k)).map (fun i => (text.drop i).take k)).dedup

/-- Reduction of a shingle hash into the field: `basehash % _PRIME`. -/
def baseHash (H : Hash64) (seed : ℕ) (sh : List Char) : ℕ :=
  H.onShingle sh seed % PRIME

/-- One entry of the permuted-hash matrix, with numpy `uint64` wraparound:
`(basehash * a + b) % _PRIME & _MAX_HASH` where the product and the sum are
taken modulo `2 ^ 64` (numpy computes in fixed 64-bit width). -/
def permute (a b h : ℕ) : ℕ :=
  (((h * a) % U64 + b) % U64 % PRIME) &&& MAX_HASH

/-- Modelled from the spec: the same permuted value in exact integer
arithmetic, `((base_hash * a_i + b_i) mod P) & 0xFFFFFFFF`, with no
intermediate overflow (spec section 4.3, numeric policy). -/
def permuteSpec (a b h : ℕ) : ℕ :=
  ((h * a + b) % PRIME) &&& MAX_HASH

/-- Nonempty minimum: `l.foldl min x`, the reduction numpy performs per column. -/
def listMin (x : ℕ) (l : List ℕ) : ℕ :=
  l.foldl min x

/-- Embedding of `SetSignatures._compute_minhash`: hash every shingle, reduce
mod `_PRIME`, apply each `(a_i, b_i)` permutation with `uint64` wraparound,
and take the columnwise minimum.  `np.minimum.reduce` raises on an empty
shingle iterable whenever the output would need elements (i.e. `num_perm > 0`). -/
def computeMinhash (H : Hash64) (cfg : Config) (shs : List (List Char)) :
    Except PyError (List ℕ) :=
  match shs with
  | [] =>
      match cfg.a.zip cfg.b with
      | [] => .ok []
      | _ :: _ => .error .zeroSizeReduction
  | s :: rest =>
      .ok ((cfg.a.zip cfg.b).map (fun p =>
        listMin (permute p.1 p.2 (baseHash H cfg.seed s))
          (rest.map (fun t => permute p.1 p.2 (baseHash H cfg.seed t)))))

/-- Little-endian byte encoding of one `uint64` value, as produced by
`np.ascontiguousarray(sig.astype('<u8')).tobytes()` per element. -/
def le64 (v : ℕ) : List ℕ :=
  (List.range 8).map (fun j => v / 2 ^ (8 * j) % 256)

/-- Byte string of a signature slice: concatenation of the little-endian
encodings of its entries. -/
def sigBytes (sig : List ℕ) : List ℕ :=
  (sig.map le64).flatten

/-- Embedding of `SetSignatures._compute_lsh_key_int`: for each band, hash the
bytes of the slice `sig[band*r : (band+1)*r]` and tag with the band index:
`(band << 64) | bucket64`. -/
def computeLshKeys (H : Hash64) (cfg : Config) (sig : List ℕ) : List ℕ :=
  (List.range cfg.num_bands).map (fun band =>
    (band <<< 64) |||
      H.onBytes (sigBytes ((sig.drop (band * cfg.rows_per_band)).take
        cfg.rows_per_band)) cfg.seed)

/-- Embedding of `SetSignatures.get_lsh_key`: shingle, minhash, band keys. -/
def getLshKey (H : Hash64) (cfg : Config) (text : List Char) :
    Except PyError (List ℕ) := do
  let sig ← computeMinhash H cfg (shingles cfg.shingle_size text)
  return computeLshKeys H cfg sig

/-- Embedding of `SetSignatures.get_batch_lsh_key`: the same three steps
repeated per text, accumulating results in input order; a raised exception
aborts the whole batch. -/
def getBatchLshKey (H : Hash64) (cfg : Config) (texts : List (List Char)) :
    Except PyError (List (List ℕ)) :=
  match texts with
  | [] => .ok []
  | t :: ts => do
      let sig ← computeMinhash H cfg (shingles cfg.shingle_size t)
      let keys := computeLshKeys H cfg sig
      let rest ← getBatchLshKey H cfg ts
      return keys :: rest

/-! Concrete instances of the library contracts, used in witnesses. -/

/-- A concrete instance of the 64-bit hash contract (length plus seed). -/
def Hc : Hash64 where
  onShingle := fun s seed => (s.length + seed) % 2 ^ 64
  onBytes := fun bs seed => (bs.length + seed) % 2 ^ 64
  onShingle_lt := fun _ _ => Nat.mod_lt _ (by norm_num)
  onBytes_lt := fun _ _ => Nat.mod_lt _ (by norm_num)

/-- A hash instance sending every shingle to `2 ^ 60`, a value the real
`mmh3` hash attains up to reduction mod `P`; it exhibits the `uint64`
overflow, since `2 ^ 60 * 16 = 2 ^ 64` wraps to `0`. -/
def H60 : Hash64 where
  onShingle := fun _ _ => 2 ^ 60
  onBytes := fun _ _ => 0
  onShingle_lt := fun _ _ => by norm_num
  onBytes_lt := fun _ _ => by norm_num

/-- A concrete instance of the generator contract: every draw returns `low`. -/
def RLow : RNG where
  integers := fun _ _ low _ size => List.replicate size low
  length_integers := fun _ _ _ _ _ => List.length_replicate _ _
  mem_integers := by
    intro seed call low high size x hlh hx
    have hxl := List.eq_of_mem_replicate hx
    subst hxl
    exact ⟨le_refl _, hlh⟩

/-- The config built by `construct RLow 1 0 3 (1 / 2)`. -/
noncomputable def cfgW : Config :=
  ⟨1, 0, 3, 1 / 2, [1], [0], 1, 1, sCurve 1 1⟩

/-- The config built by `construct RLow 1 0 4 (1 / 3)`: same seed and
`num_perm` as `cfgW`, different shingle size and threshold. -/
noncomputable def cfgW2 : Config :=
  ⟨1, 0, 4, 1 / 3, [1], [0], 1, 1, sCurve 1 1⟩

/-- A two-band config used to witness key distinctness across bands. -/
noncomputable def cfgB : Config :=
  ⟨2, 0, 3, 1 / 2, [1, 1], [0, 0], 2, 1, sCurve 2 1⟩

/-- A config whose single permutation has `a = 16`, `b = 0`, triggering the
`uint64` wraparound on base hash `2 ^ 60`. -/
noncomputable def cfgO : Config :=
  ⟨1, 0, 3, 7 / 10, [16], [0], 1, 1, 7 / 10⟩

/-! Helper lemmas about the argmin fold used by `_pick_b_r`. -/

lemma minStep_cases {α : Type} (key : α → ℝ) (acc y : α) :
    minStep key acc y = y ∨ minStep key acc y = acc := by
  unfold minStep
  by_cases h : key y < key acc
  · exact Or.inl (if_pos h)
  · exact Or.inr (if_neg h)

lemma key_minStep_le_left {α : Type} (key : α → ℝ) (acc y : α) :
    key (minStep key acc y) ≤ key acc := by
  unfold minStep
  by_cases h : key y < key acc
  · rw [if_pos h]; exact le_of_lt h
  · rw [if_neg h]

lemma key_minStep_le_right {α : Type} (key : α → ℝ) (acc y : α) :
    key (minStep key acc y) ≤ key y := by
  unfold minStep
  by_cases h : key y < key acc
  · rw [if_pos h]
  · rw [if_neg h]; exact le_of_not_lt h

lemma foldl_minStep_mem {α : Type} (key : α → ℝ) (l : List α) :
    ∀ a : α, l.foldl (minStep key) a ∈ a :: l := by
  induction l with
  | nil => intro a; simp
  | cons y ys ih =>
      intro a
      rw [List.foldl_cons]
      have h := ih (minStep key a y)
      rw [List.mem_cons] at h
      rcases h with h | h
      · rw [h]
        rcases minStep_cases key a y with hc | hc <;> rw [hc] <;> simp
      · simp [List.mem_cons_of_mem, h]

lemma foldl_minStep_le {α : Type} (key : α → ℝ) (l : List α) :
    ∀ a : α, ∀ x ∈ a :: l, key (l.foldl (minStep key) a) ≤ key x := by
  induction l with
  | nil =>
      intro a x hx
      rw [List.mem_singleton] at hx
      subst hx
      exact le_refl _
  | cons y ys ih =>
      intro a x hx
      rw [List.foldl_cons]
      have hhead : key (ys.foldl (minStep key) (minStep key a y)) ≤ key (minStep key a y) :=
        ih (minStep key a y) _ (List.mem_cons_self _ _)
      rw [List.mem_cons] at hx
      rcases hx with hx | hx
      · subst hx
        exact le_trans hhead (key_minStep_le_left key _ _)
      · rw [List.mem_cons] at hx
        rcases hx with hx | hx
        · subst hx
          exact le_trans hhead (key_minStep_le_right key _ _)
        · exact ih (minStep key a y) x (List.mem_cons_of_mem _ hx)

lemma foldl_minStep_keep {α : Type} (key : α → ℝ) (l : List α) :
    ∀ a : α, (∀ z ∈ l, ¬ key z < key a) → l.foldl (minStep key) a = a := by
  induction l with
  | nil => intro a _; rfl
  | cons y ys ih =>
      intro a h
      rw [List.foldl_cons]
      have hy : minStep key a y = a := if_neg (h y (List.mem_cons_self _ _))
      rw [hy]
      exact ih a (fun z hz => h z (List.mem_cons_of_mem _ hz))

lemma foldl_minStep_eq {α : Type} (key : α → ℝ) (l : List α) :
    ∀ a x : α, x ∈ l → key x < key a →
      (∀ y ∈ l, y ≠ x → key x < key y) → l.foldl (minStep key) a = x := by
  induction l with
  | nil => intro a x hx; cases hx
  | cons y ys ih =>
      intro a x hx hxa hs
      rw [List.foldl_cons]
      by_cases hyx : y = x
      · subst hyx
        rw [show minStep key a y = y from if_pos hxa]
        exact foldl_minStep_keep key ys y (fun z hz hlt => by
          by_cases hzy : z = y
          · subst hzy; exact lt_irrefl _ hlt
          · exact absurd hlt (not_lt_of_gt (hs z (List.mem_cons_of_mem _ hz) hzy)))
      · have hxys : x ∈ ys := by
          rw [List.mem_cons] at hx
          rcases hx with hx | hx
          · exact absurd hx.symm hyx
          · exact hx
        have hxacc : key x < key (minStep key a y) := by
          rcases minStep_cases key a y with hc | hc <;> rw [hc]
          · exact hs y (List.mem_cons_self _ _) hyx
          · exact hxa
        exact ih (minStep key a y) x hxys hxacc
          (fun z hz => hs z (List.mem_cons_of_mem _ hz))

lemma minBy_eq_some {α : Type} {key : α → ℝ} {l : List α} {m : α}
    (h : minBy key l = some m) : m ∈ l ∧ ∀ x ∈ l, key m ≤ key x := by
  cases l with
  | nil => cases h
  | cons a as =>
      simp only [minBy] at h
      have hm : m = as.foldl (minStep key) a := (Option.some.inj h).symm
      subst hm
      exact ⟨foldl_minStep_mem key as a, foldl_minStep_le key as a⟩

lemma minBy_isSome {α : Type} (key : α → ℝ) {l : List α} (h : l ≠ []) :
    ∃ m, minBy key l = some m := by
  cases l with
  | nil => exact absurd rfl h
  | cons a as => exact ⟨as.foldl (minStep key) a, rfl⟩

lemma minBy_eq_of_strict {α : Type} (key : α → ℝ) {l : List α} {x : α}
    (hx : x ∈ l) (hs : ∀ y ∈ l, y ≠ x → key x < key y) : minBy key l = some x := by
  cases l with
  | nil => cases hx
  | cons a as =>
      simp only [minBy]
      by_cases hax : a = x
      · subst hax
        rw [foldl_minStep_keep key as a (fun z hz hlt => by
          by_cases hza : z = a
          · subst hza; exact lt_irrefl _ hlt
          · exact absurd hlt (not_lt_of_gt (hs z (List.mem_cons_of_mem _ hz) hza)))]
      · have hxas : x ∈ as := by
          rw [List.mem_cons] at hx
          rcases hx with hx | hx
          · exact absurd hx.symm hax
          · exact hx
        rw [foldl_minStep_eq key as a x hxas
          (hs a (List.mem_cons_self _ _) hax)
          (fun z hz => hs z (List.mem_cons_of_mem _ hz))]

/-! Helper lemmas about the candidate divisor pairs. -/

lemma mem_candidates {n : ℕ} {p : ℕ × ℕ} (h : p ∈ candidates n) :
    p.1 * p.2 = n ∧ 0 < p.1 ∧ 0 < p.2 := by
  unfold candidates at h
  rw [List.mem_filterMap] at h
  obtain ⟨i, hi, hp⟩ := h
  rw [List.mem_range] at hi
  by_cases hd : n % (i + 1) = 0
  · rw [if_pos hd] at hp
    have hp2 := Option.some.inj hp
    subst hp2
    refine ⟨Nat.div_mul_cancel (Nat.dvd_of_mod_eq_zero hd), ?_, Nat.succ_pos i⟩
    exact Nat.div_pos (by omega) (Nat.succ_pos i)
  · rw [if_neg hd] at hp
    cases hp

lemma self_one_mem_candidates {n : ℕ} (h : 0 < n) : (n, 1) ∈ candidates n := by
  unfold candidates
  rw [List.mem_filterMap]
  refine ⟨0, ?_, ?_⟩
  · rw [List.mem_range]; exact h
  · simp [Nat.mod_one]

/-! Helper lemmas about the columnwise minimum of `_compute_minhash`. -/

lemma listMin_mem (x : ℕ) (l : List ℕ) : listMin x l ∈ x :: l := by
  induction l generalizing x with
  | nil => simp [listMin]
  | cons y ys ih =>
      have h := ih (min x y)
      rw [List.mem_cons] at h
      unfold listMin at h ⊢
      rw [List.foldl_cons]
      rcases h with h | h
      · rw [h]
        rcases le_total x y with hc | hc
        · rw [min_eq_left hc]; simp
        · rw [min_eq_right hc]; simp
      · simp [List.mem_cons_of_mem, h]

lemma listMin_le (x : ℕ) (l : List ℕ) : ∀ z ∈ x :: l, listMin x l ≤ z := by
  induction l generalizing x with
  | nil =>
      intro z hz
      rw [List.mem_singleton] at hz
      subst hz
      exact le_refl _
  | cons y ys ih =>
      intro z hz
      unfold listMin
      rw [List.foldl_cons]
      have hhead : listMin (min x y) ys ≤ min x y := ih (min x y) _ (List.mem_cons_self _ _)
      rw [List.mem_cons] at hz
      rcases hz with hz | hz
      · subst hz
        exact le_trans hhead (min_le_left _ _)
      · rw [List.mem_cons] at hz
        rcases hz with hz | hz
        · subst hz
          exact le_trans hhead (min_le_right _ _)
        · exact ih (min x y) z (List.mem_cons_of_mem _ hz)

lemma listMin_congr {x y : ℕ} {xs ys : List ℕ}
    (h : ∀ z : ℕ, z ∈ x :: xs ↔ z ∈ y :: ys) : listMin x xs = listMin y ys :=
  le_antisymm
    (listMin_le x xs _ ((h _).mpr (listMin_mem y ys)))
    (listMin_le y ys _ ((h _).mp (listMin_mem x xs)))

/-! Real-valued facts about the S-curve `s = (1 / b) ** (1 / r)`. -/

lemma two_rpow_neg_nat (n : ℕ) : (2 : ℝ) ^ (-(n : ℝ)) = ((2 : ℝ) ^ n)⁻¹ := by
  rw [Real.rpow_neg (by norm_num), Real.rpow_natCast]

lemma sCurve_two_pow (j r : ℕ) :
    sCurve (2 ^ j) r = (2 : ℝ) ^ (-((j : ℝ) / (r : ℝ))) := by
  unfold sCurve
  have h1 : ((2 ^ j : ℕ) : ℝ) = (2 : ℝ) ^ (j : ℝ) := by
    push_cast
    rw [Real.rpow_natCast]
  rw [h1, one_div, ← Real.rpow_neg (by norm_num), ← Real.rpow_mul (by norm_num)]
  congr 1
  ring

lemma sCurve_one_r (b : ℕ) : sCurve b 1 = 1 / (b : ℝ) := by
  unfold sCurve
  rw [show ((1 : ℕ) : ℝ) = (1 : ℝ) by norm_num, div_one, Real.rpow_one]

lemma sCurve_b_one (r : ℕ) : sCurve 1 r = 1 := by
  unfold sCurve
  rw [show ((1 : ℕ) : ℝ) = (1 : ℝ) by norm_num, div_one, Real.one_rpow]

lemma rpow_neg_div_lt {p q : ℕ} {c : ℝ} (hq : 0 < q) (hc : 0 < c)
    (h : 1 < c ^ q * 2 ^ p) : (2 : ℝ) ^ (-((p : ℝ) / (q : ℝ))) < c := by
  have hx : (0 : ℝ) < (2 : ℝ) ^ (-((p : ℝ) / (q : ℝ))) :=
    Real.rpow_pos_of_pos (by norm_num) _
  have hq0 : ((q : ℝ)) ≠ 0 := Nat.cast_ne_zero.mpr hq.ne'
  have hpow : ((2 : ℝ) ^ (-((p : ℝ) / (q : ℝ)))) ^ q = ((2 : ℝ) ^ p)⁻¹ := by
    rw [← Real.rpow_natCast ((2 : ℝ) ^ (-((p : ℝ) / (q : ℝ)))) q,
        ← Real.rpow_mul (by norm_num),
        show (-((p : ℝ) / (q : ℝ))) * (q : ℝ) = -(p : ℝ) by field_simp,
        two_rpow_neg_nat]
  rw [← pow_lt_pow_iff_left₀ hx.le hc.le hq.ne', hpow, inv_eq_one_div,
      div_lt_iff₀ (by positivity)]
  exact h

lemma lt_rpow_neg_div {p q : ℕ} {c : ℝ} (hq : 0 < q) (hc : 0 ≤ c)
    (h : c ^ q * 2 ^ p < 1) : c < (2 : ℝ) ^ (-((p : ℝ) / (q : ℝ))) := by
  have hx : (0 : ℝ) < (2 : ℝ) ^ (-((p : ℝ) / (q : ℝ))) :=
    Real.rpow_pos_of_pos (by norm_num) _
  have hq0 : ((q : ℝ)) ≠ 0 := Nat.cast_ne_zero.mpr hq.ne'
  have hpow : ((2 : ℝ) ^ (-((p : ℝ) / (q : ℝ)))) ^ q = ((2 : ℝ) ^ p)⁻¹ := by
    rw [← Real.rpow_natCast ((2 : ℝ) ^ (-((p : ℝ) / (q : ℝ)))) q,
        ← Real.rpow_mul (by norm_num),
        show (-((p : ℝ) / (q : ℝ))) * (q : ℝ) = -(p : ℝ) by field_simp,
        two_rpow_neg_nat]
  rw [← pow_lt_pow_iff_left₀ hc hx.le hq.ne', hpow, inv_eq_one_div,
      lt_div_iff₀ (by positivity)]
  exact h

lemma sCurve_128_1 : sCurve 128 1 = 1 / 128 := by
  rw [sCurve_one_r]
  norm_num

lemma sCurve_64_2 : sCurve 64 2 = 1 / 8 := by
  rw [show (64 : ℕ) = 2 ^ 6 by norm_num, sCurve_two_pow,
      show -(((6 : ℕ) : ℝ) / ((2 : ℕ) : ℝ)) = -((3 : ℕ) : ℝ) by push_cast; norm_num,
      two_rpow_neg_nat]
  norm_num

lemma sCurve_1_128 : sCurve 1 128 = 1 := sCurve_b_one 128

lemma sCurve_32_4_bounds : 1 / 4 < sCurve 32 4 ∧ sCurve 32 4 < 1 / 2 := by
  rw [show (32 : ℕ) = 2 ^ 5 by norm_num, sCurve_two_pow]
  constructor
  · exact lt_rpow_neg_div (by norm_num) (by norm_num) (by norm_num)
  · exact rpow_neg_div_lt (by norm_num) (by norm_num) (by norm_num)

lemma sCurve_16_8_bounds : 7 / 10 < sCurve 16 8 ∧ sCurve 16 8 < 71 / 100 := by
  rw [show (16 : ℕ) = 2 ^ 4 by norm_num, sCurve_two_pow]
  constructor
  · exact lt_rpow_neg_div (by norm_num) (by norm_num) (by norm_num)
  · exact rpow_neg_div_lt (by norm_num) (by norm_num) (by norm_num)

lemma sCurve_8_16_bound : 4 / 5 < sCurve 8 16 := by
  rw [show (8 : ℕ) = 2 ^ 3 by norm_num, sCurve_two_pow]
  exact lt_rpow_neg_div (by norm_num) (by norm_num) (by norm_num)

lemma sCurve_4_32_bound : 4 / 5 < sCurve 4 32 := by
  rw [show (4 : ℕ) = 2 ^ 2 by norm_num, sCurve_two_pow]
  exact lt_rpow_neg_div (by norm_num) (by norm_num) (by norm_num)

lemma sCurve_2_64_bound : 4 / 5 < sCurve 2 64 := by
  have h : sCurve (2 ^ 1) 64 = (2 : ℝ) ^ (-(((1 : ℕ) : ℝ) / ((64 : ℕ) : ℝ))) :=
    sCurve_two_pow 1 64
  rw [pow_one] at h
  rw [h]
  exact lt_rpow_neg_div (by norm_num) (by norm_num) (by norm_num)

lemma key_16_8_small : |sCurve 16 8 - 7 / 10| < 1 / 100 := by
  have h := sCurve_16_8_bounds
  rw [abs_lt]
  constructor <;> linarith [h.1, h.2]

lemma pickBR_128 : pickBR 128 (7 / 10) = some (16, 8, sCurve 16 8) := by
  have hc : candidates 128 =
      [(128, 1), (64, 2), (32, 4), (16, 8), (8, 16), (4, 32), (2, 64), (1, 128)] := by
    decide
  have hmem : ((16, 8) : ℕ × ℕ) ∈ candidates 128 := by
    rw [hc]
    simp
  have hstrict : ∀ y ∈ candidates 128, y ≠ ((16, 8) : ℕ × ℕ) →
      |sCurve 16 8 - 7 / 10| < |sCurve y.1 y.2 - 7 / 10| := by
    rw [hc]
    intro y hy hne
    have hw := key_16_8_small
    fin_cases hy
    · have h := sCurve_128_1
      have habs := neg_abs_le (sCurve 128 1 - 7 / 10)
      linarith
    · have h := sCurve_64_2
      have habs := neg_abs_le (sCurve 64 2 - 7 / 10)
      linarith
    · have h := sCurve_32_4_bounds
      have habs := neg_abs_le (sCurve 32 4 - 7 / 10)
      linarith [h.2]
    · exact absurd rfl hne
    · have h := sCurve_8_16_bound
      have habs := le_abs_self (sCurve 8 16 - 7 / 10)
      linarith
    · have h := sCurve_4_32_bound
      have habs := le_abs_self (sCurve 4 32 - 7 / 10)
      linarith
    · have h := sCurve_2_64_bound
      have habs := le_abs_self (sCurve 2 64 - 7 / 10)
      linarith
    · have h := sCurve_1_128
      have habs := le_abs_self (sCurve 1 128 - 7 / 10)
      linarith
  unfold pickBR
  rw [minBy_eq_of_strict _ hmem hstrict]
  rfl

/-! Bit-level facts about the band-tagged keys `(band << 64) | bucket64`. -/

lemma testBit_band_key {h : ℕ} (i : ℕ) (hh : h < 2 ^ 64) (n : ℕ) :
    ((i <<< 64) ||| h).testBit (n + 64) = i.testBit n := by
  have hhigh : h.testBit (n + 64) = false :=
    Nat.testBit_lt_two_pow
      (lt_of_lt_of_le hh (Nat.pow_le_pow_right (by norm_num) (by omega)))
  rw [Nat.testBit_or, Nat.testBit_shiftLeft, hhigh]
  simp

lemma band_key_inj {i j h1 h2 : ℕ} (hh1 : h1 < 2 ^ 64) (hh2 : h2 < 2 ^ 64)
    (heq : (i <<< 64) ||| h1 = (j <<< 64) ||| h2) : i = j := by
  apply Nat.eq_of_testBit_eq
  intro n
  have h := congrArg (fun x => Nat.testBit x (n + 64)) heq
  simpa [testBit_band_key i hh1 n, testBit_band_key j hh2 n] using h

/-- The minhash signature depends only on the underlying shingle set: the code
iterates the Python set in an arbitrary order, and the columnwise minimum is
invariant under order and multiplicity. -/
lemma computeMinhash_congr (H : Hash64) (cfg : Config) {l1 l2 : List (List Char)}
    (h : ∀ s, s ∈ l1 ↔ s ∈ l2) :
    computeMinhash H cfg l1 = computeMinhash H cfg l2 := by
  cases l1 with
  | nil =>
      cases l2 with
      | nil => rfl
      | cons t r2 => exact absurd ((h t).mpr (List.mem_cons_self _ _)) (List.not_mem_nil t)
  | cons s r1 =>
      cases l2 with
      | nil => exact absurd ((h s).mp (List.mem_cons_self _ _)) (List.not_mem_nil s)
      | cons t r2 =>
          simp only [computeMinhash]
          congr 1
          apply List.map_congr_left
          intro p _
          apply listMin_congr
          intro z
          have h1 : permute p.1 p.2 (baseHash H cfg.seed s) ::
              List.map (fun u => permute p.1 p.2 (baseHash H cfg.seed u)) r1 =
              List.map (fun u => permute p.1 p.2 (baseHash H cfg.seed u)) (s :: r1) := rfl
          have h2 : permute p.1 p.2 (baseHash H cfg.seed t) ::
              List.map (fun u => permute p.1 p.2 (baseHash H cfg.seed u)) r2 =
              List.map (fun u => permute p.1 p.2 (baseHash H cfg.seed u)) (t :: r2) := rfl
          rw [h1, h2, List.mem_map, List.mem_map]
          constructor
          · rintro ⟨u, hu, he⟩
            exact ⟨u, (h u).mp hu, he⟩
          · rintro ⟨u, hu, he⟩
            exact ⟨u, (h u).mpr hu, he⟩


/-- Field inversion for a successful construction. -/
lemma construct_fields {R : RNG} {np seed ss : ℕ} {t : ℝ} {c : Config}
    (h : construct R np seed ss t = .ok c) :
    c.num_perm = np ∧ c.a = R.integers seed 0 1 PRIME np ∧
    c.b = R.integers seed 1 0 PRIME np ∧
    pickBR np t = some (c.num_bands, c.rows_per_band, c.actual_threshold) := by
  unfold construct at h
  cases hp : pickBR np t with
  | none =>
      rw [hp] at h
      exact Except.noConfusion h
  | some x =>
      obtain ⟨nb, rpb, s⟩ := x
      rw [hp] at h
      have he := Except.ok.inj h
      subst he
      exact ⟨rfl, rfl, rfl, rfl⟩

/-- Texts long enough to shingle produce at least one shingle. -/
lemma shingles_ne_nil {k : ℕ} {text : List Char} (h : k ≤ text.length) :
    shingles k text ≠ [] := by
  unfold shingles
  intro hnil
  rw [List.dedup_eq_nil, List.map_eq_nil_iff, List.range_eq_nil] at hnil
  omega

/-- With a nonempty permutation table, a text shorter than the shingle size
makes `get_lsh_key` fail with the numpy zero-size reduction error: the
failure condition of the claim holds exactly, only the error identity
differs. -/
lemma getLshKey_short_text (H : Hash64) (cfg : Config) (text : List Char)
    (hshort : text.length < cfg.shingle_size) (ha : cfg.a ≠ []) (hb : cfg.b ≠ []) :
    getLshKey H cfg text = .error .zeroSizeReduction := by
  have hempty : shingles cfg.shingle_size text = [] := by
    unfold shingles
    rw [show text.length + 1 - cfg.shingle_size = 0 by omega]
    rfl
  unfold getLshKey
  rw [hempty]
  cases hza : cfg.a.zip cfg.b with
  | nil =>
      rw [List.zip_eq_nil_iff] at hza
      rcases hza with hza | hza
      · exact absurd hza ha
      · exact absurd hza hb
  | cons p ps =>
      unfold computeMinhash
      rw [hza]
      rfl

/-- A text at least as long as the shingle size always succeeds. -/
lemma getLshKey_ok_of_le (H : Hash64) (cfg : Config) (text : List Char)
    (h : cfg.shingle_size ≤ text.length) :
    ∃ keys, getLshKey H cfg text = .ok keys := by
  cases hsh : shingles cfg.shingle_size text with
  | nil => exact absurd hsh (shingles_ne_nil h)
  | cons s rest =>
      refine ⟨computeLshKeys H cfg ((cfg.a.zip cfg.b).map (fun p =>
        listMin (permute p.1 p.2 (baseHash H cfg.seed s))
          (rest.map (fun t => permute p.1 p.2 (baseHash H cfg.seed t))))), ?_⟩
      unfold getLshKey
      rw [hsh]
      rfl

/-- C1: the claim fails on the code.  numpy `uint64` multiplication silently
wraps modulo `2 ^ 64` before the reduction mod `P`: with base hash `2 ^ 60`
and coefficients `a = 16`, `b = 0`, `_compute_minhash` produces signature
slot `0`, whereas the exact-arithmetic value
`((base_hash * a + b) mod P) & 0xFFFFFFFF` demanded by the claim is `8`. -/
theorem claim_C1_uint64_overflow :
    computeMinhash H60 cfgO ["x".toList] = .ok [0] ∧
    permute 16 0 (baseHash H60 0 "x".toList) = 0 ∧
    permuteSpec 16 0 (baseHash H60 0 "x".toList) = 8 :=
  ⟨rfl, rfl, rfl⟩

/-- C2: evaluating `get_lsh_key` at a text shorter than `shingle_size`: the
call does fail rather than return a value, but with numpy's zero-size
reduction `ValueError`; the code declares no `EmptyInputError`. -/
theorem claim_C2_short_text_error :
    getLshKey Hc cfgW "ab".toList = Except.error PyError.zeroSizeReduction :=
  rfl

/-- C3: the constructor performs no argument validation: with
`shingle_size = 0` and `threshold = 2`, both invalid per the claim,
construction succeeds; and with `num_perm = 0` it fails with the plain
`ValueError` raised by `min` on an empty sequence — the code declares no
`InvalidConfigError`. -/
theorem claim_C3_no_validation :
    construct RLow 1 42 0 (2 : ℝ) =
      Except.ok ⟨1, 42, 0, 2, [1], [0], 1, 1, sCurve 1 1⟩ ∧
    construct RLow 0 42 3 (7 / 10 : ℝ) = Except.error PyError.minEmptySequence :=
  ⟨rfl, rfl⟩

/-- C4: `_pick_b_r` returns, for every positive `num_perm` and every
threshold, a divisor pair of `num_perm` minimizing `|s - threshold|` over all
divisor pairs (with `s = (1/b)^(1/r)`), and for `num_perm = 128`,
`threshold = 0.7` it selects `(b, r) = (16, 8)`, the pair closest to `0.7`. -/
theorem claim_C4_band_optimizer (n : ℕ) (t : ℝ) (hn : 0 < n) :
    (∃ nb rpb s, pickBR n t = some (nb, rpb, s) ∧ nb * rpb = n ∧
       s = sCurve nb rpb ∧
       ∀ p ∈ candidates n, |s - t| ≤ |sCurve p.1 p.2 - t|) ∧
    pickBR 128 (7 / 10) = some (16, 8, sCurve 16 8) := by
  constructor
  · have hne : candidates n ≠ [] :=
      List.ne_nil_of_mem (self_one_mem_candidates hn)
    obtain ⟨m, hm⟩ := minBy_isSome (fun p => |sCurve p.1 p.2 - t|) hne
    obtain ⟨hmem, hle⟩ := minBy_eq_some hm
    refine ⟨m.1, m.2, sCurve m.1 m.2, ?_, (mem_candidates hmem).1, rfl, hle⟩
    unfold pickBR
    rw [hm]
    rfl
  · exact pickBR_128

/-- Witness for C4 at `num_perm = 1`, `threshold = 1 / 2`. -/
theorem claim_C4_band_optimizer_w :
    0 < 1 ∧
    ((∃ nb rpb s, pickBR 1 (1 / 2) = some (nb, rpb, s) ∧ nb * rpb = 1 ∧
        s = sCurve nb rpb ∧
        ∀ p ∈ candidates 1, |s - 1 / 2| ≤ |sCurve p.1 p.2 - 1 / 2|) ∧
      pickBR 128 (7 / 10) = some (16, 8, sCurve 16 8)) :=
  ⟨by norm_num, claim_C4_band_optimizer 1 (1 / 2) (by norm_num)⟩

/-- C5: every successfully constructed config satisfies
`num_bands * rows_per_band = num_perm` with both factors positive. -/
theorem claim_C5_band_invariant (R : RNG) (np seed ss : ℕ) (t : ℝ) (c : Config)
    (h : construct R np seed ss t = .ok c) :
    c.num_bands * c.rows_per_band = c.num_perm ∧
    0 < c.num_bands ∧ 0 < c.rows_per_band := by
  obtain ⟨hnp, _, _, hp⟩ := construct_fields h
  unfold pickBR at hp
  rw [Option.map_eq_some'] at hp
  obtain ⟨m, hm, hfn⟩ := hp
  have hfacts := mem_candidates (minBy_eq_some hm).1
  have e1 : m.1 = c.num_bands := congrArg (fun z => z.1) hfn
  have e2 : m.2 = c.rows_per_band := congrArg (fun z => z.2.1) hfn
  rw [e1, e2] at hfacts
  rw [hnp]
  exact ⟨hfacts.1, hfacts.2.1, hfacts.2.2⟩

/-- Witness for C5 on a concrete successful construction. -/
theorem claim_C5_band_invariant_w :
    construct RLow 1 0 3 (1 / 2 : ℝ) = .ok cfgW ∧
    (cfgW.num_bands * cfgW.rows_per_band = cfgW.num_perm ∧
     0 < cfgW.num_bands ∧ 0 < cfgW.rows_per_band) :=
  ⟨rfl, claim_C5_band_invariant RLow 1 0 3 (1 / 2) cfgW rfl⟩

/-- C8: the derived coefficients of any successful construction have length
`num_perm`, lie in `[1, P-1]` and `[0, P-1]` respectively, and two
constructions with the same seed and `num_perm` (any shingle size and
threshold) hold identical coefficient sequences. -/
theorem claim_C8_coefficients (R : RNG) (np seed ss1 ss2 : ℕ) (t1 t2 : ℝ)
    (c1 c2 : Config)
    (h1 : construct R np seed ss1 t1 = .ok c1)
    (h2 : construct R np seed ss2 t2 = .ok c2) :
    c1.a.length = np ∧ c1.b.length = np ∧
    (∀ x ∈ c1.a, 1 ≤ x ∧ x ≤ PRIME - 1) ∧
    (∀ x ∈ c1.b, x ≤ PRIME - 1) ∧
    c1.a = c2.a ∧ c1.b = c2.b := by
  have hP1 : 1 < PRIME := by norm_num [PRIME]
  have hP0 : 0 < PRIME := by norm_num [PRIME]
  obtain ⟨_, ha1, hb1, _⟩ := construct_fields h1
  obtain ⟨_, ha2, hb2, _⟩ := construct_fields h2
  refine ⟨?_, ?_, ?_, ?_, ?_, ?_⟩
  · rw [ha1, R.length_integers]
  · rw [hb1, R.length_integers]
  · intro x hx
    rw [ha1] at hx
    have hr := R.mem_integers seed 0 1 PRIME np x hP1 hx
    exact ⟨hr.1, Nat.le_sub_one_of_lt hr.2⟩
  · intro x hx
    rw [hb1] at hx
    have hr := R.mem_integers seed 1 0 PRIME np x hP0 hx
    exact Nat.le_sub_one_of_lt hr.2
  · rw [ha1, ha2]
  · rw [hb1, hb2]

/-- Witness for C8: two concrete constructions with the same seed and
`num_perm` but different shingle sizes and thresholds. -/
theorem claim_C8_coefficients_w :
    cfgW.a.length = 1 ∧ cfgW.b.length = 1 ∧
    (∀ x ∈ cfgW.a, 1 ≤ x ∧ x ≤ PRIME - 1) ∧
    (∀ x ∈ cfgW.b, x ≤ PRIME - 1) ∧
    cfgW.a = cfgW2.a ∧ cfgW.b = cfgW2.b :=
  claim_C8_coefficients RLow 1 0 3 4 (1 / 2) (1 / 3) cfgW cfgW2 rfl rfl

/-- C6: `_compute_lsh_key_int` returns exactly `num_bands` keys; the key at
band `i` is `(i << 64) | bucket` where `bucket` is the seeded 64-bit hash of
the bytes of the slice `sig[i*rows_per_band : (i+1)*rows_per_band]`; and keys
of distinct bands are never equal, even when their bucket ids coincide. -/
theorem claim_C6_lsh_keys (H : Hash64) (cfg : Config) (sig : List ℕ)
    (_hlen : sig.length = cfg.num_perm) :
    (computeLshKeys H cfg sig).length = cfg.num_bands ∧
    (∀ i, i < cfg.num_bands → (computeLshKeys H cfg sig)[i]? =
       some ((i <<< 64) ||| H.onBytes
         (sigBytes ((sig.drop (i * cfg.rows_per_band)).take cfg.rows_per_band))
         cfg.seed)) ∧
    (∀ i j, i < cfg.num_bands → j < cfg.num_bands → i ≠ j →
       (computeLshKeys H cfg sig)[i]? ≠ (computeLshKeys H cfg sig)[j]?) := by
  have hget : ∀ i, i < cfg.num_bands → (computeLshKeys H cfg sig)[i]? =
      some ((i <<< 64) ||| H.onBytes
        (sigBytes ((sig.drop (i * cfg.rows_per_band)).take cfg.rows_per_band))
        cfg.seed) := by
    intro i hi
    unfold computeLshKeys
    rw [List.getElem?_map, List.getElem?_range hi]
    rfl
  refine ⟨?_, hget, ?_⟩
  · unfold computeLshKeys
    rw [List.length_map, List.length_range]
  · intro i j hi hj hij hcontra
    rw [hget i hi, hget j hj] at hcontra
    exact hij (band_key_inj (H.onBytes_lt _ _) (H.onBytes_lt _ _)
      (Option.some.inj hcontra))

/-- Witness for C6 on a concrete two-band config and signature. -/
theorem claim_C6_lsh_keys_w :
    (computeLshKeys Hc cfgB [5, 7]).length = cfgB.num_bands ∧
    (computeLshKeys Hc cfgB [5, 7])[0]? ≠ (computeLshKeys Hc cfgB [5, 7])[1]? :=
  ⟨(claim_C6_lsh_keys Hc cfgB [5, 7] rfl).1,
   (claim_C6_lsh_keys Hc cfgB [5, 7] rfl).2.2 0 1 (by decide) (by decide) (by decide)⟩

/-- C7: for a text of length `n ≥ k`, `shingles` returns exactly the set of
contiguous length-`k` substrings (each membership is witnessed by a start
position `i` with `i + k ≤ n`), every shingle has length `k`, and for
`n < k` the result is empty. -/
theorem claim_C7_shingles (k : ℕ) (text : List Char) :
    (∀ s, s ∈ shingles k text ↔
       ∃ i, i + k ≤ text.length ∧ s = (text.drop i).take k) ∧
    (∀ s ∈ shingles k text, s.length = k) ∧
    (text.length < k → shingles k text = []) := by
  have hmem : ∀ s, s ∈ shingles k text ↔
      ∃ i, i + k ≤ text.length ∧ s = (text.drop i).take k := by
    intro s
    unfold shingles
    rw [List.mem_dedup, List.mem_map]
    constructor
    · rintro ⟨i, hi, he⟩
      rw [List.mem_range] at hi
      exact ⟨i, by omega, he.symm⟩
    · rintro ⟨i, hi, he⟩
      refine ⟨i, ?_, he.symm⟩
      rw [List.mem_range]
      omega
  refine ⟨hmem, ?_, ?_⟩
  · intro s hs
    obtain ⟨i, hi, he⟩ := (hmem s).mp hs
    subst he
    rw [List.length_take, List.length_drop]
    omega
  · intro hlt
    unfold shingles
    rw [show text.length + 1 - k = 0 by omega]
    rfl

/-- Witness for C7: a text shorter than the shingle size yields no shingles. -/
theorem claim_C7_shingles_w : shingles 3 "ab".toList = [] :=
  (claim_C7_shingles 3 "ab".toList).2.2 (by decide)

/-- C9: the batch operation returns one result per input text, index-aligned,
each equal to the single-text operation on that text. -/
theorem claim_C9_batch (H : Hash64) (cfg : Config) (texts : List (List Char))
    (out : List (List ℕ)) (h : getBatchLshKey H cfg texts = .ok out) :
    out.length = texts.length ∧
    ∀ i : ℕ, (texts[i]?).map (getLshKey H cfg) = (out[i]?).map Except.ok := by
  induction texts generalizing out with
  | nil =>
      have he : ([] : List (List ℕ)) = out := Except.ok.inj h
      subst he
      exact ⟨rfl, fun i => rfl⟩
  | cons t ts ih =>
      unfold getBatchLshKey at h
      cases hc : computeMinhash H cfg (shingles cfg.shingle_size t) with
      | error e =>
          rw [hc] at h
          exact Except.noConfusion h
      | ok sig =>
          rw [hc] at h
          cases hb : getBatchLshKey H cfg ts with
          | error e =>
              rw [hb] at h
              exact Except.noConfusion h
          | ok rest =>
              rw [hb] at h
              have he : computeLshKeys H cfg sig :: rest = out := Except.ok.inj h
              subst he
              obtain ⟨ihl, ihe⟩ := ih rest hb
              refine ⟨by simp [ihl], ?_⟩
              intro i
              cases i with
              | zero =>
                  rw [List.getElem?_cons_zero, List.getElem?_cons_zero]
                  show some (getLshKey H cfg t) =
                    some (Except.ok (computeLshKeys H cfg sig))
                  unfold getLshKey
                  rw [hc]
                  rfl
              | succ n =>
                  rw [List.getElem?_cons_succ, List.getElem?_cons_succ]
                  exact ihe n

/-- Witness for C9 on a concrete one-element batch. -/
theorem claim_C9_batch_w :
    getBatchLshKey Hc cfgW ["abc".toList] = .ok [[8]] ∧
    (([[8]] : List (List ℕ)).length = [("abc".toList)].length ∧
     ∀ i : ℕ, ([("abc".toList)][i]?).map (getLshKey Hc cfgW) =
       (([[8]] : List (List ℕ))[i]?).map Except.ok) :=
  ⟨rfl, claim_C9_batch Hc cfgW ["abc".toList] [[8]] rfl⟩

/-- C10: the key list depends only on the extracted shingle set: texts with
equal shingle sets yield equal key lists, independently of any iteration
order over the set. -/
theorem claim_C10_set_dependence (H : Hash64) (cfg : Config) (t1 t2 : List Char)
    (h : (shingles cfg.shingle_size t1).toFinset =
         (shingles cfg.shingle_size t2).toFinset) :
    getLshKey H cfg t1 = getLshKey H cfg t2 := by
  have hmem : ∀ s, s ∈ shingles cfg.shingle_size t1 ↔
      s ∈ shingles cfg.shingle_size t2 := by
    intro s
    rw [← List.mem_toFinset, h, List.mem_toFinset]
  unfold getLshKey
  rw [computeMinhash_congr H cfg hmem]

/-- Witness for C10: two different texts with the same 3-gram set. -/
theorem claim_C10_set_dependence_w :
    (shingles cfgW.shingle_size "abcabc".toList).toFinset =
      (shingles cfgW.shingle_size "bcabca".toList).toFinset ∧
    getLshKey Hc cfgW "abcabc".toList = getLshKey Hc cfgW "bcabca".toList :=
  ⟨by decide, claim_C10_set_dependence Hc cfgW "abcabc".toList "bcabca".toList
    (by decide)⟩

end SetSig
